import Mathlib

/-!
Verification of the spec-file Markdown parser of the `sdd-vscode-ext`
repository.  The definitions below are a shallow embedding of the
TypeScript class `SpecParser` (method `parseFile` and its helpers) and,
for the three-way checklist flows, of the standalone function
`parseSpecSection`.  Lines are modelled as `List Char`; the JavaScript
regular expressions used by the source are embedded as hand-derived
deterministic matchers that reproduce the greedy/backtracking semantics
of each concrete pattern.
-/

namespace SddExt

/-- JavaScript `\s` (white space) restricted to the characters that can
occur in practice (space, tab, carriage return, line feed, vertical tab,
form feed). -/
def isWs (c : Char) : Bool :=
  c = ' ' || c = '\t' || c = '\n' || c = '\r' || c = '\x0b' || c = '\x0c'

/-- JavaScript regex line terminators that `.` does not match. -/
def isTerm (c : Char) : Bool :=
  c = '\n' || c = '\r'

/-- `String.data` of a literal, used to write concrete lines. -/
def str (s : String) : List Char := s.data

/-- JavaScript `String.prototype.trim()`: strip white space from both
ends. -/
def trimWs (l : List Char) : List Char :=
  List.rdropWhile isWs (l.dropWhile isWs)

/-- Matching `(.+)` at the start of `t` (greedy, `.` excludes line
terminators): the longest nonempty terminator-free prefix. -/
def dotPlus (t : List Char) : Option (List Char) :=
  match t with
  | [] => none
  | c :: rest =>
    if isTerm c then none
    else some ((c :: rest).takeWhile (fun ch => !isTerm ch))

/-- Matching `\s*(.+)` against all of the remaining input `t`, with the
backtracking of a greedy `\s*`: prefer to consume a white-space
character into `\s*`, and fall back to starting the capture here. -/
def wsStarDotPlus : List Char → Option (List Char)
  | [] => none
  | c :: rest =>
    if isWs c then
      match wsStarDotPlus rest with
      | some r => some r
      | none => dotPlus (c :: rest)
    else dotPlus (c :: rest)

/-- Matching `\s+(.+)` against `t`: at least one white-space character,
then as `\s*(.+)`. -/
def wsPlusDotPlus : List Char → Option (List Char)
  | [] => none
  | c :: rest => if isWs c then wsStarDotPlus rest else none

/-- The regex `/^##\s+(.+)/` of `SpecParser.parseFile` (section
headers); returns capture group 1. -/
def sectionMatch (line : List Char) : Option (List Char) :=
  match line with
  | '#' :: '#' :: rest => wsPlusDotPlus rest
  | _ => none

/-- The regex `/^###\s+(.+)/` of `SpecParser.parseFile` (subsection
headers); returns capture group 1. -/
def subsectionMatch (line : List Char) : Option (List Char) :=
  match line with
  | '#' :: '#' :: '#' :: rest => wsPlusDotPlus rest
  | _ => none

/-- The alternative `\d+\.` inside the list-item marker group: one or
more digits followed by a literal dot. -/
def digitsDot (t : List Char) : Option (List Char) :=
  let ds := t.takeWhile Char.isDigit
  let r := t.dropWhile Char.isDigit
  if ds = [] then none
  else
    match r with
    | '.' :: r2 => some r2
    | _ => none

/-- The marker group `([-*+]|\d+\.|\[[x ]\])` of the list-item regex;
returns the input after the marker when one of the alternatives matches
at the front. -/
def markerSplit (t : List Char) : Option (List Char) :=
  match t with
  | '-' :: r => some r
  | '*' :: r => some r
  | '+' :: r => some r
  | '[' :: 'x' :: ']' :: r => some r
  | '[' :: ' ' :: ']' :: r => some r
  | _ => digitsDot t

/-- The regex `/^\s*([-*+]|\d+\.|\[[x ]\])\s+(.+)/` of
`SpecParser.parseFile` (list items); returns capture group 2.  The
leading `\s*` is deterministic because no marker alternative starts
with white space. -/
def itemMatch (line : List Char) : Option (List Char) :=
  match markerSplit (line.dropWhile isWs) with
  | some tail => wsPlusDotPlus tail
  | none => none

/-- The regex `/^\[([x ])\]\s*(.+)/` of `SpecParser.parseFile` (status
checkbox); returns capture groups 1 and 2. -/
def checkboxMatch (t : List Char) : Option (Char × List Char) :=
  match t with
  | '[' :: c :: ']' :: rest =>
    if c = 'x' || c = ' ' then
      match wsStarDotPlus rest with
      | some r => some (c, r)
      | none => none
    else none
  | _ => none

/-- The replacement `itemLabel.replace(/^\[[ x]\]\s*/, '')` of
`SpecParser.parseFile`: remove one leading checkbox token together with
the white space that follows it. -/
def stripCheckbox (t : List Char) : List Char :=
  match t with
  | '[' :: c :: ']' :: rest =>
    if c = 'x' || c = ' ' then rest.dropWhile isWs else t
  | _ => t

/-- `SectionType = 'section' | 'subsection' | 'subitem'` (types.ts);
the first constructor is `sec` because `section` is reserved in Lean. -/
inductive SectionType where
  | sec
  | subsec
  | subitem
deriving DecidableEq, Repr

/-- `ImplementationStatus = 'pending' | 'in-progress' | 'completed'`
(types.ts). -/
inductive ImplementationStatus where
  | pending
  | inProgress
  | completed
deriving DecidableEq, Repr

/-- `SpecSectionFilter = 'requirements' | 'implementations' | 'all'`
(types.ts). -/
inductive SpecSectionFilter where
  | requirements
  | implementations
  | all
deriving DecidableEq, Repr

/-- `ParsedSection` (types.ts); `contextValue` is always set to the
section type by `createSection`. -/
structure ParsedSection where
  label : List Char
  line : Nat
  type : SectionType
  parent : Option (List Char)
  status : Option ImplementationStatus
  contextValue : SectionType
deriving DecidableEq, Repr

/-- `ParseOptions` (types.ts); `includeStatus` left out in a call is the
falsy `undefined`, modelled as `false`. -/
structure ParseOptions where
  filter : SpecSectionFilter
  includeStatus : Bool
  sectionKeywords : Option (List (List Char))
deriving DecidableEq, Repr

/-- `SpecParser.createSection`: builds a node with no status and
`contextValue` equal to the type. -/
def createSection (label : List Char) (line : Nat) (type : SectionType)
    (parent : Option (List Char)) : ParsedSection :=
  { label := label, line := line, type := type, parent := parent,
    status := none, contextValue := type }

/-- Case-sensitive substring test, JavaScript
`String.prototype.includes`. -/
def containsSub (needle : List Char) : List Char → Bool
  | [] => needle.isPrefixOf ([] : List Char)
  | c :: rest => needle.isPrefixOf (c :: rest) || containsSub needle rest

/-- JavaScript `String.prototype.toLowerCase` on the ASCII data that
occurs here. -/
def lowerStr (l : List Char) : List Char := l.map Char.toLower

/-- `SpecParser.isSectionMatch`: the lowercased section name contains
some lowercased keyword. -/
def isSectionMatch (sectionName : List Char) (keywords : List (List Char)) : Bool :=
  keywords.any (fun keyword => containsSub (lowerStr keyword) (lowerStr sectionName))

/-- The status-extraction fragment of `SpecParser.parseFile` (the
`includeStatus` checkbox match followed by the unconditional
`replace(/^\[[ x]\]\s*/, '')` cleanup), as a function from the trimmed
raw item text to the recorded status and the final label. -/
def extractStatus (includeStatus : Bool) (itemLabel : List Char) :
    Option ImplementationStatus × List Char :=
  let p :=
    if includeStatus then
      match checkboxMatch itemLabel with
      | some (c, rest) =>
        (some (if c = 'x' then ImplementationStatus.completed
               else ImplementationStatus.pending), rest)
      | none => (none, itemLabel)
    else (none, itemLabel)
  (p.1, stripCheckbox p.2)

/-- The loop state of `SpecParser.parseFile`: the current section and
subsection, the active flag, the three dedup sets and the accumulated
output. -/
structure ParserState where
  currentSection : Option (List Char)
  currentSubsection : Option (List Char)
  inTargetSection : Bool
  sectionSet : List (List Char)
  subsectionSet : List (List Char)
  subitemSet : List (List Char)
  out : List ParsedSection

/-- Initial loop state: `inTargetSection = options.filter === 'all'`. -/
def initState (options : ParseOptions) : ParserState :=
  { currentSection := none, currentSubsection := none,
    inTargetSection := options.filter = SpecSectionFilter.all,
    sectionSet := [], subsectionSet := [], subitemSet := [], out := [] }

/-- The `::` separator used to build dedup keys in
`SpecParser.parseFile`. -/
def keySep : List Char := str "::"

/-- One iteration of the `for` loop of `SpecParser.parseFile` on line
`i`.  Note the JavaScript truthiness in `!currentSection`,
`if (currentSubsection)` and `if (itemLabel ...)`: the empty string is
falsy. -/
def processLine (options : ParseOptions) (st : ParserState) (i : Nat)
    (line : List Char) : ParserState :=
  match sectionMatch line with
  | some cap =>
    let sectionName := trimWs cap
    let inT :=
      if options.filter ≠ SpecSectionFilter.all then
        isSectionMatch sectionName (options.sectionKeywords.getD [])
      else st.inTargetSection
    if inT then
      if sectionName ∈ st.sectionSet then
        { st with currentSection := some sectionName,
                  currentSubsection := none, inTargetSection := inT }
      else
        { st with currentSection := some sectionName,
                  currentSubsection := none, inTargetSection := inT,
                  sectionSet := sectionName :: st.sectionSet,
                  out := st.out ++ [createSection sectionName i SectionType.sec none] }
    else
      { st with currentSection := none, currentSubsection := none,
                inTargetSection := inT }
  | none =>
    match st.currentSection with
    | none => st
    | some cur =>
      if !st.inTargetSection || cur = [] then st
      else
        match subsectionMatch line with
        | some cap =>
          let sub := trimWs cap
          let subKey := cur ++ keySep ++ sub
          if subKey ∈ st.subsectionSet then
            { st with currentSubsection := some sub }
          else
            { st with currentSubsection := some sub,
                      subsectionSet := subKey :: st.subsectionSet,
                      out := st.out ++ [createSection sub i SectionType.subsec (some cur)] }
        | none =>
          match st.currentSubsection with
          | none => st
          | some sub =>
            if sub = [] then st
            else
              match itemMatch line with
              | none => st
              | some cap2 =>
                let es := extractStatus options.includeStatus (trimWs cap2)
                let itemLabel := es.2
                let itemKey := cur ++ keySep ++ sub ++ keySep ++ itemLabel
                if itemLabel ≠ [] ∧ itemKey ∉ st.subitemSet then
                  { st with subitemSet := itemKey :: st.subitemSet,
                            out := st.out ++
                              [{ label := itemLabel, line := i,
                                 type := SectionType.subitem, parent := some sub,
                                 status := es.1,
                                 contextValue := SectionType.subitem }] }
                else st

/-- The `for` loop of `SpecParser.parseFile` from line index `i`. -/
def runLines (options : ParseOptions) : ParserState → Nat → List (List Char) → ParserState
  | st, _, [] => st
  | st, i, l :: rest => runLines options (processLine options st i l) (i + 1) rest

/-- The line-parsing part of `SpecParser.parseFile`, applied to an
already split document. -/
def parseLines (lines : List (List Char)) (options : ParseOptions) : List ParsedSection :=
  (runLines options (initState options) 0 lines).out

/-- JavaScript `content.split(/\r?\n/)`. -/
def splitLines : List Char → List (List Char) :=
  go []
where
  /-- Accumulates the current line (reversed) while scanning. -/
  go : List Char → List Char → List (List Char)
  | acc, [] => [acc.reverse]
  | acc, '\r' :: '\n' :: rest => acc.reverse :: go [] rest
  | acc, '\n' :: rest => acc.reverse :: go [] rest
  | acc, c :: rest => go (c :: acc) rest

/-- `SpecParser.parseFile`: the caller-facing wrapper.  `fsExists`
models `fs.existsSync`, `content` models
`specFileManager.getContent()` (`none` = `undefined`); the JavaScript
guard `if (!content)` also treats the empty string as absent. -/
def parseFile (fsExists : List Char → Bool) (filePath : List Char)
    (content : Option (List Char)) (options : ParseOptions) : List ParsedSection :=
  if fsExists filePath = false then []
  else
    match content with
    | none => []
    | some text => if text = [] then [] else parseLines (splitLines text) options

/-- Keyword configuration of `SpecParser.parseRequirements`. -/
def requirementKeywords : List (List Char) :=
  [str "user", str "scenario", str "requirement", str "test", str "functional"]

/-- Keyword configuration of `SpecParser.parseImplementations`. -/
def implementationKeywords : List (List Char) :=
  [str "review", str "acceptance", str "checklist", str "implementation",
   str "development", str "task"]

/-- Options of `SpecParser.parseAllSections`. -/
def allOptions : ParseOptions :=
  { filter := SpecSectionFilter.all, includeStatus := false, sectionKeywords := none }

/-- Options of `SpecParser.parseRequirements`. -/
def requirementsOptions : ParseOptions :=
  { filter := SpecSectionFilter.requirements, includeStatus := false,
    sectionKeywords := some requirementKeywords }

/-- Options of `SpecParser.parseImplementations`. -/
def implementationsOptions : ParseOptions :=
  { filter := SpecSectionFilter.implementations, includeStatus := true,
    sectionKeywords := some implementationKeywords }

/-- `SpecParser.parseAllSections`. -/
def parseAllSections (fsExists : List Char → Bool) (filePath : List Char)
    (content : Option (List Char)) : List ParsedSection :=
  parseFile fsExists filePath content allOptions

/-- `SpecParser.parseRequirements`. -/
def parseRequirements (fsExists : List Char → Bool) (filePath : List Char)
    (content : Option (List Char)) : List ParsedSection :=
  parseFile fsExists filePath content requirementsOptions

/-- `SpecParser.parseImplementations`. -/
def parseImplementations (fsExists : List Char → Bool) (filePath : List Char)
    (content : Option (List Char)) : List ParsedSection :=
  parseFile fsExists filePath content implementationsOptions

/-! The three-way checklist flow of the standalone `parseSpecSection`
function (Review/Execution checklists), which matches the regex
`/^- \[([ x~])\] (.+)$/` against a whole line: a literal `- `, a
checkbox whose mark may also be `~`, a single space, and a capture that
must reach the end of the line. -/

/-- Three-way status of `parseSpecSection` todo items
(`'Pending' | 'In Progress' | 'Completed'`). -/
inductive TodoStatus where
  | pending
  | inProgress
  | completed
deriving DecidableEq, Repr

/-- The regex `/^- \[([ x~])\] (.+)$/` of `parseSpecSection`; returns
capture groups 1 and 2.  The `$` anchor forces the capture to extend to
the end of the line, so the remainder must be nonempty and free of line
terminators. -/
def todoLineMatch (line : List Char) : Option (Char × List Char) :=
  match line with
  | '-' :: ' ' :: '[' :: c :: ']' :: ' ' :: rest =>
    if (c = ' ' || c = 'x' || c = '~') && (rest ≠ [] && rest.all (fun ch => !isTerm ch)) then
      some (c, rest)
    else none
  | _ => none

/-- The status assignment of `parseSpecSection`: `x` is Completed, `~`
is In Progress, anything else (the blank mark) is Pending. -/
def todoStatusOf (c : Char) : TodoStatus :=
  if c = 'x' then TodoStatus.completed
  else if c = '~' then TodoStatus.inProgress
  else TodoStatus.pending

/-! Boolean observers used to state the spec's invariants over a parse
result. -/

/-- `pairwiseAll f l` holds when `f a b` holds for every pair `a`, `b`
with `a` occurring before `b` in `l`. -/
def pairwiseAll (f : ParsedSection → ParsedSection → Bool) : List ParsedSection → Bool
  | [] => true
  | a :: rest => rest.all (f a) && pairwiseAll f rest

/-- Two nodes clash in the sense of the spec's dedup invariant: same
kind `Section` with the same label, or same kind `Subsection` with the
same `(parentLabel, label)` pair. -/
def dupKeyClash (a b : ParsedSection) : Bool :=
  decide ((a.type = SectionType.sec ∧ b.type = SectionType.sec ∧ a.label = b.label) ∨
    (a.type = SectionType.subsec ∧ b.type = SectionType.subsec ∧
      a.parent = b.parent ∧ a.label = b.label))

/-- The containment condition of one node against the nodes emitted
before it: a subsection's parent is an earlier section's label, an
item's parent is an earlier subsection's label. -/
def nodeContained (prior : List ParsedSection) (n : ParsedSection) : Bool :=
  match n.type with
  | SectionType.sec => true
  | SectionType.subsec =>
    prior.any (fun m => decide (m.type = SectionType.sec ∧ n.parent = some m.label))
  | SectionType.subitem =>
    prior.any (fun m => decide (m.type = SectionType.subsec ∧ n.parent = some m.label))

/-- The containment condition of a subsection node only; item nodes are
not checked. -/
def subNodeContained (prior : List ParsedSection) (n : ParsedSection) : Bool :=
  match n.type with
  | SectionType.subsec =>
    prior.any (fun m => decide (m.type = SectionType.sec ∧ n.parent = some m.label))
  | _ => true

/-- Run a per-node containment condition along a list, each node judged
against the nodes before it. -/
def containedFrom (chk : List ParsedSection → ParsedSection → Bool) :
    List ParsedSection → List ParsedSection → Bool
  | _, [] => true
  | prior, n :: rest => chk prior n && containedFrom chk (prior ++ [n]) rest

/-- Full containment of a parse result (subsections under earlier
sections, items under earlier subsections). -/
def containmentOK (out : List ParsedSection) : Bool :=
  containedFrom nodeContained [] out

/-- Containment of subsection nodes only. -/
def subContainmentOK (out : List ParsedSection) : Bool :=
  containedFrom subNodeContained [] out

/-- Output order agrees with strictly ascending source line order. -/
def ascendingLines : List ParsedSection → Bool :=
  pairwiseAll (fun a b => decide (a.line < b.line))

/-! Helper lemmas: captured groups are built from characters of the
matched line, and the `::`-joined dedup keys are injective on
colon-free components. -/

theorem dotPlus_subset {t r : List Char} (h : dotPlus t = some r) : ∀ c ∈ r, c ∈ t := by
  cases t with
  | nil => simp [dotPlus] at h
  | cons c rest =>
    simp only [dotPlus] at h
    split at h
    · exact absurd h (by simp)
    · injection h with h2
      subst h2
      exact fun x hx => (List.takeWhile_sublist _).subset hx

theorem wsStarDotPlus_subset :
    ∀ {t r : List Char}, wsStarDotPlus t = some r → ∀ c ∈ r, c ∈ t := by
  intro t
  induction t with
  | nil => intro r h; simp [wsStarDotPlus] at h
  | cons c rest ih =>
    intro r h x hx
    unfold wsStarDotPlus at h
    split at h
    · cases hrec : wsStarDotPlus rest with
      | some r2 =>
        rw [hrec] at h
        injection h with h2
        subst h2
        exact List.mem_cons_of_mem _ (ih hrec x hx)
      | none =>
        rw [hrec] at h
        exact dotPlus_subset h x hx
    · exact dotPlus_subset h x hx

theorem wsPlusDotPlus_subset {t r : List Char} (h : wsPlusDotPlus t = some r) :
    ∀ c ∈ r, c ∈ t := by
  cases t with
  | nil => simp [wsPlusDotPlus] at h
  | cons c rest =>
    simp only [wsPlusDotPlus] at h
    split at h
    · exact fun x hx => List.mem_cons_of_mem _ (wsStarDotPlus_subset h x hx)
    · exact absurd h (by simp)

theorem trimWs_subset (l : List Char) : ∀ c ∈ trimWs l, c ∈ l := by
  intro c hc
  have h1 : c ∈ l.dropWhile isWs :=
    (List.rdropWhile_prefix isWs (l.dropWhile isWs)).sublist.subset hc
  exact (List.dropWhile_suffix isWs).sublist.subset h1

theorem sectionMatch_subset {line r : List Char} (h : sectionMatch line = some r) :
    ∀ c ∈ r, c ∈ line := by
  unfold sectionMatch at h
  split at h
  · rename_i rest
    exact fun c hc =>
      List.mem_cons_of_mem _ (List.mem_cons_of_mem _ (wsPlusDotPlus_subset h c hc))
  · exact absurd h (by simp)

theorem subsectionMatch_subset {line r : List Char} (h : subsectionMatch line = some r) :
    ∀ c ∈ r, c ∈ line := by
  unfold subsectionMatch at h
  split at h
  · rename_i rest
    exact fun c hc =>
      List.mem_cons_of_mem _ (List.mem_cons_of_mem _
        (List.mem_cons_of_mem _ (wsPlusDotPlus_subset h c hc)))
  · exact absurd h (by simp)

/-- Keys `s ++ "::" ++ t` are injective when the left components are
free of colons. -/
theorem keySep_append_inj :
    ∀ {s1 s2 t1 t2 : List Char}, ':' ∉ s1 → ':' ∉ s2 →
      s1 ++ keySep ++ t1 = s2 ++ keySep ++ t2 → s1 = s2 ∧ t1 = t2 := by
  intro s1
  induction s1 with
  | nil =>
    intro s2 t1 t2 _ h2 h
    cases s2 with
    | nil =>
      refine ⟨rfl, ?_⟩
      simpa [keySep, str] using h
    | cons c s2' =>
      exfalso
      simp [keySep, str] at h
      exact h2 (by simp [h.1.symm])
  | cons c s1' ih =>
    intro s2 t1 t2 h1 h2 h
    cases s2 with
    | nil =>
      exfalso
      simp [keySep, str] at h
      exact h1 (by simp [h.1])
    | cons c2 s2' =>
      simp only [List.cons_append, List.cons.injEq] at h
      obtain ⟨hc, hrest⟩ := h
      have h1' : ':' ∉ s1' := fun hm => h1 (List.mem_cons_of_mem _ hm)
      have h2' : ':' ∉ s2' := fun hm => h2 (List.mem_cons_of_mem _ hm)
      obtain ⟨hs, ht⟩ := ih h1' h2' hrest
      exact ⟨by rw [hc, hs], ht⟩

theorem pairwiseAll_append {f : ParsedSection → ParsedSection → Bool}
    {l : List ParsedSection} {n : ParsedSection} :
    pairwiseAll f (l ++ [n]) = true ↔
      (pairwiseAll f l = true ∧ ∀ a ∈ l, f a n = true) := by
  induction l with
  | nil => simp [pairwiseAll]
  | cons a rest ih =>
    simp only [List.cons_append, pairwiseAll, List.append_eq, Bool.and_eq_true,
      List.all_eq_true, ih, List.mem_append, List.mem_singleton, List.mem_cons,
      List.not_mem_nil, or_false]
    constructor
    · rintro ⟨ha, hrest, hn⟩
      exact ⟨⟨fun b hb => ha b (Or.inl hb), hrest⟩,
        fun b hb => hb.elim (fun hb1 => by rw [hb1]; exact ha n (Or.inr rfl)) (hn b)⟩
    · rintro ⟨⟨ha, hrest⟩, hn⟩
      exact ⟨fun b hb => hb.elim (ha b) (fun hb1 => by rw [hb1]; exact hn a (Or.inl rfl)),
        hrest, fun b hb => hn b (Or.inr hb)⟩

theorem containedFrom_append {chk : List ParsedSection → ParsedSection → Bool} :
    ∀ {l prior : List ParsedSection} {n : ParsedSection},
      containedFrom chk prior (l ++ [n]) = true ↔
        (containedFrom chk prior l = true ∧ chk (prior ++ l) n = true) := by
  intro l
  induction l with
  | nil => intro prior n; simp [containedFrom]
  | cons a rest ih =>
    intro prior n
    simp only [List.cons_append, containedFrom, List.append_eq, Bool.and_eq_true]
    rw [ih, List.append_assoc, List.singleton_append]
    tauto

/-- Case analysis of one loop iteration of `SpecParser.parseFile`:
either the state is unchanged, or exactly one of the six interesting
branches fires (new/duplicate active section, inactive section,
new/duplicate subsection, new item), each described by the full
resulting state. -/
theorem processLine_cases (o : ParseOptions) (st : ParserState) (i : Nat) (line : List Char) :
    processLine o st i line = st ∨
    (∃ name, (∀ c ∈ name, c ∈ line) ∧
      (o.filter ≠ SpecSectionFilter.all → isSectionMatch name (o.sectionKeywords.getD []) = true) ∧
      name ∉ st.sectionSet ∧
      processLine o st i line =
        { currentSection := some name, currentSubsection := none, inTargetSection := true,
          sectionSet := name :: st.sectionSet, subsectionSet := st.subsectionSet,
          subitemSet := st.subitemSet,
          out := st.out ++ [createSection name i SectionType.sec none] }) ∨
    (∃ name, (∀ c ∈ name, c ∈ line) ∧
      (o.filter ≠ SpecSectionFilter.all → isSectionMatch name (o.sectionKeywords.getD []) = true) ∧
      name ∈ st.sectionSet ∧
      processLine o st i line =
        { currentSection := some name, currentSubsection := none, inTargetSection := true,
          sectionSet := st.sectionSet, subsectionSet := st.subsectionSet,
          subitemSet := st.subitemSet, out := st.out }) ∨
    (processLine o st i line =
      { currentSection := none, currentSubsection := none, inTargetSection := false,
        sectionSet := st.sectionSet, subsectionSet := st.subsectionSet,
        subitemSet := st.subitemSet, out := st.out }) ∨
    (∃ cur sub, st.currentSection = some cur ∧ st.inTargetSection = true ∧ cur ≠ [] ∧
      (∀ c ∈ sub, c ∈ line) ∧ cur ++ keySep ++ sub ∉ st.subsectionSet ∧
      processLine o st i line =
        { currentSection := some cur, currentSubsection := some sub, inTargetSection := true,
          sectionSet := st.sectionSet,
          subsectionSet := (cur ++ keySep ++ sub) :: st.subsectionSet,
          subitemSet := st.subitemSet,
          out := st.out ++ [createSection sub i SectionType.subsec (some cur)] }) ∨
    (∃ cur sub, st.currentSection = some cur ∧ st.inTargetSection = true ∧ cur ≠ [] ∧
      (∀ c ∈ sub, c ∈ line) ∧ cur ++ keySep ++ sub ∈ st.subsectionSet ∧
      processLine o st i line =
        { currentSection := some cur, currentSubsection := some sub, inTargetSection := true,
          sectionSet := st.sectionSet, subsectionSet := st.subsectionSet,
          subitemSet := st.subitemSet, out := st.out }) ∨
    (∃ cur sub lbl stt, st.currentSection = some cur ∧ st.currentSubsection = some sub ∧
      st.inTargetSection = true ∧ cur ≠ [] ∧ sub ≠ [] ∧ lbl ≠ [] ∧
      cur ++ keySep ++ sub ++ keySep ++ lbl ∉ st.subitemSet ∧
      processLine o st i line =
        { currentSection := some cur, currentSubsection := some sub, inTargetSection := true,
          sectionSet := st.sectionSet, subsectionSet := st.subsectionSet,
          subitemSet := (cur ++ keySep ++ sub ++ keySep ++ lbl) :: st.subitemSet,
          out := st.out ++ [{ label := lbl, line := i, type := SectionType.subitem,
                              parent := some sub, status := stt,
                              contextValue := SectionType.subitem }] }) := by
  unfold processLine
  cases hsm : sectionMatch line with
  | some cap =>
    dsimp only
    have hsubset : ∀ c ∈ trimWs cap, c ∈ line :=
      fun c hc => sectionMatch_subset hsm c (trimWs_subset cap c hc)
    by_cases hT : (if o.filter ≠ SpecSectionFilter.all then
        isSectionMatch (trimWs cap) (o.sectionKeywords.getD [])
      else st.inTargetSection) = true
    · rw [if_pos hT]
      have hkw : o.filter ≠ SpecSectionFilter.all →
          isSectionMatch (trimWs cap) (o.sectionKeywords.getD []) = true := by
        intro hf
        rwa [if_pos hf] at hT
      by_cases hdup : trimWs cap ∈ st.sectionSet
      · refine Or.inr (Or.inr (Or.inl ⟨trimWs cap, hsubset, hkw, hdup, ?_⟩))
        rw [if_pos hdup, hT]
      · refine Or.inr (Or.inl ⟨trimWs cap, hsubset, hkw, hdup, ?_⟩)
        rw [if_neg hdup, hT]
    · rw [if_neg hT]
      refine Or.inr (Or.inr (Or.inr (Or.inl ?_)))
      rw [Bool.not_eq_true] at hT
      rw [hT]
  | none =>
    cases hcs : st.currentSection with
    | none => exact Or.inl rfl
    | some cur =>
      dsimp only
      split
      · exact Or.inl rfl
      · rename_i hguard
        have hT : st.inTargetSection = true := by
          cases hTv : st.inTargetSection
          · exact absurd (by rw [hTv]; rfl) hguard
          · rfl
        have hcur : cur ≠ [] := by
          intro he
          exact hguard (by rw [he]; simp)
        cases hss : subsectionMatch line with
        | some cap =>
          dsimp only
          have hsubset : ∀ c ∈ trimWs cap, c ∈ line :=
            fun c hc => subsectionMatch_subset hss c (trimWs_subset cap c hc)
          by_cases hdup : cur ++ keySep ++ trimWs cap ∈ st.subsectionSet
          · refine Or.inr (Or.inr (Or.inr (Or.inr (Or.inr (Or.inl
              ⟨cur, trimWs cap, rfl, hT, hcur, hsubset, hdup, ?_⟩)))))
            rw [if_pos hdup, ParserState.mk.injEq]
            refine ⟨rfl, rfl, hT, rfl, rfl, rfl, rfl⟩
          · refine Or.inr (Or.inr (Or.inr (Or.inr (Or.inl
              ⟨cur, trimWs cap, rfl, hT, hcur, hsubset, hdup, ?_⟩))))
            rw [if_neg hdup, ParserState.mk.injEq]
            refine ⟨rfl, rfl, hT, rfl, rfl, rfl, rfl⟩
        | none =>
          cases hcsub : st.currentSubsection with
          | none => exact Or.inl rfl
          | some sub =>
            dsimp only
            split
            · exact Or.inl rfl
            · rename_i hsubne
              cases him : itemMatch line with
              | none => exact Or.inl rfl
              | some cap2 =>
                dsimp only
                split
                · rename_i hok
                  refine Or.inr (Or.inr (Or.inr (Or.inr (Or.inr (Or.inr
                    ⟨cur, sub, (extractStatus o.includeStatus (trimWs cap2)).2,
                      (extractStatus o.includeStatus (trimWs cap2)).1,
                      rfl, rfl, hT, hcur, hsubne, hok.1, hok.2, ?_⟩)))))
                  rw [ParserState.mk.injEq]
                  refine ⟨rfl, rfl, hT, rfl, rfl, rfl, rfl⟩
                · exact Or.inl rfl

/-- Generic invariant preservation along the parse loop. -/
theorem runLines_inv (o : ParseOptions) (Inv : ParserState → Nat → Prop)
    (P : List Char → Prop)
    (step : ∀ st i line, P line → Inv st i → Inv (processLine o st i line) (i + 1)) :
    ∀ (lines : List (List Char)) (st : ParserState) (i : Nat),
      (∀ l ∈ lines, P l) → Inv st i → ∃ j, Inv (runLines o st i lines) j := by
  intro lines
  induction lines with
  | nil => intro st i _ h; exact ⟨i, h⟩
  | cons l rest ih =>
    intro st i hP h
    simp only [runLines]
    exact ih _ _ (fun x hx => hP x (List.mem_cons_of_mem _ hx))
      (step st i l (hP l (List.mem_cons_self _ _)) h)

/-- On terminator-free input with a non-blank remainder, `\s*(.+)`
captures everything after the white-space prefix. -/
theorem wsStarDotPlus_of_noTerm :
    ∀ {t : List Char}, (∀ c ∈ t, isTerm c = false) → t.dropWhile isWs ≠ [] →
      wsStarDotPlus t = some (t.dropWhile isWs) := by
  intro t
  induction t with
  | nil => intro _ h; simp at h
  | cons c rest ih =>
    intro hnt hne
    by_cases hws : isWs c = true
    · rw [List.dropWhile_cons_of_pos hws] at hne ⊢
      have hrec := ih (fun x hx => hnt x (List.mem_cons_of_mem _ hx)) hne
      simp only [wsStarDotPlus, hws, if_true, hrec]
    · rw [List.dropWhile_cons_of_neg hws] at hne ⊢
      have hct : isTerm c = false := hnt c (List.mem_cons_self _ _)
      simp only [wsStarDotPlus, hws, if_false, dotPlus, hct, Bool.false_eq_true,
        reduceIte, Option.some.injEq]
      exact List.takeWhile_eq_self_iff.mpr (fun x hx => by simp [hnt x hx])

/-- A recognized checkbox token (`[x]` or `[ ]`) stands at the very
front of the text. -/
def checkboxAtStart (t : List Char) : Bool :=
  match t with
  | '[' :: c :: ']' :: _ => c = 'x' || c = ' '
  | _ => false

theorem checkboxMatch_of_no_token {s : List Char} (h : checkboxAtStart s = false) :
    checkboxMatch s = none := by
  unfold checkboxMatch
  split
  · rename_i c rest
    rw [checkboxAtStart] at h
    rw [if_neg (by simp_all)]
  · rfl

theorem stripCheckbox_of_no_token {s : List Char} (h : checkboxAtStart s = false) :
    stripCheckbox s = s := by
  unfold stripCheckbox
  split
  · rename_i c rest
    rw [checkboxAtStart] at h
    rw [if_neg (by simp_all)]
  · rfl

/-- Appending a node whose line bounds the previous ones keeps the
output strictly ascending. -/
theorem asc_step_emit {out : List ParsedSection} {n : ParsedSection} {i : Nat}
    (h1 : ascendingLines out = true) (h2 : ∀ m ∈ out, m.line < i) (hn : n.line = i) :
    ascendingLines (out ++ [n]) = true ∧ ∀ m ∈ out ++ [n], m.line < i + 1 := by
  constructor
  · exact pairwiseAll_append.mpr
      ⟨h1, fun a ha => decide_eq_true (by rw [hn]; exact h2 a ha)⟩
  · intro m hm
    rcases List.mem_append.mp hm with h | h
    · exact Nat.lt_succ_of_lt (h2 m h)
    · rw [List.mem_singleton.mp h, hn]
      exact Nat.lt_succ_self i

/-- The loop emits nodes in strictly ascending line order. -/
theorem runLines_ascending (o : ParseOptions) (lines : List (List Char))
    (st : ParserState) (i : Nat) (h1 : ascendingLines st.out = true)
    (h2 : ∀ m ∈ st.out, m.line < i) :
    ascendingLines (runLines o st i lines).out = true := by
  obtain ⟨j, hj⟩ := runLines_inv o
    (fun st i => ascendingLines st.out = true ∧ ∀ m ∈ st.out, m.line < i)
    (fun _ => True)
    (by
      intro st i line _ hInv
      obtain ⟨h1, h2⟩ := hInv
      rcases processLine_cases o st i line with h | ⟨name, _, _, _, h⟩ | ⟨name, _, _, _, h⟩ |
        h | ⟨cur, sub, _, _, _, _, _, h⟩ | ⟨cur, sub, _, _, _, _, _, h⟩ |
        ⟨cur, sub, lbl, stt, _, _, _, _, _, _, _, h⟩ <;> rw [h]
      · exact ⟨h1, fun m hm => Nat.lt_succ_of_lt (h2 m hm)⟩
      · exact asc_step_emit h1 h2 rfl
      · exact ⟨h1, fun m hm => Nat.lt_succ_of_lt (h2 m hm)⟩
      · exact ⟨h1, fun m hm => Nat.lt_succ_of_lt (h2 m hm)⟩
      · exact asc_step_emit h1 h2 rfl
      · exact ⟨h1, fun m hm => Nat.lt_succ_of_lt (h2 m hm)⟩
      · exact asc_step_emit h1 h2 rfl)
    lines st i (fun _ _ => trivial) ⟨h1, h2⟩
  exact hj.1

/-- Dedup invariant preservation: no two `Section` nodes share a label
and no two `Subsection` nodes share a `(parent, label)` pair, tracked
through the seen-sets of the loop. -/
theorem runLines_dedup (o : ParseOptions) (lines : List (List Char))
    (st : ParserState) (i : Nat)
    (h1 : pairwiseAll (fun a b => !(dupKeyClash a b)) st.out = true)
    (h2 : ∀ m ∈ st.out, m.type = SectionType.sec → m.label ∈ st.sectionSet)
    (h3 : ∀ m ∈ st.out, m.type = SectionType.subsec →
      (m.parent.getD [] ++ keySep ++ m.label) ∈ st.subsectionSet) :
    pairwiseAll (fun a b => !(dupKeyClash a b)) (runLines o st i lines).out = true := by
  obtain ⟨j, hj⟩ := runLines_inv o
    (fun st _ =>
      pairwiseAll (fun a b => !(dupKeyClash a b)) st.out = true ∧
      (∀ m ∈ st.out, m.type = SectionType.sec → m.label ∈ st.sectionSet) ∧
      (∀ m ∈ st.out, m.type = SectionType.subsec →
        (m.parent.getD [] ++ keySep ++ m.label) ∈ st.subsectionSet))
    (fun _ => True)
    (by
      intro st i line _ hInv
      obtain ⟨h1, h2, h3⟩ := hInv
      rcases processLine_cases o st i line with h | ⟨name, _, _, hnd, h⟩ | ⟨name, _, _, _, h⟩ |
        h | ⟨cur, sub, _, _, _, _, hnd, h⟩ | ⟨cur, sub, _, _, _, _, _, h⟩ |
        ⟨cur, sub, lbl, stt, _, _, _, _, _, _, _, h⟩ <;> rw [h]
      · exact ⟨h1, h2, h3⟩
      · refine ⟨?_, ?_, ?_⟩
        · refine pairwiseAll_append.mpr ⟨h1, fun a ha => ?_⟩
          simp only [Bool.not_eq_true', dupKeyClash, decide_eq_false_iff_not]
          rintro (⟨hat, _, hlab⟩ | ⟨_, hnt, _, _⟩)
          · simp only [createSection] at hlab
            exact hnd (hlab ▸ h2 a ha hat)
          · exact absurd hnt (by simp [createSection])
        · intro m hm ht
          rcases List.mem_append.mp hm with hmo | hmn
          · exact List.mem_cons_of_mem _ (h2 m hmo ht)
          · rw [List.mem_singleton.mp hmn]
            simp [createSection]
        · intro m hm ht
          rcases List.mem_append.mp hm with hmo | hmn
          · exact h3 m hmo ht
          · rw [List.mem_singleton.mp hmn] at ht
            exact absurd ht (by simp [createSection])
      · exact ⟨h1, h2, h3⟩
      · exact ⟨h1, h2, h3⟩
      · refine ⟨?_, ?_, ?_⟩
        · refine pairwiseAll_append.mpr ⟨h1, fun a ha => ?_⟩
          simp only [Bool.not_eq_true', dupKeyClash, decide_eq_false_iff_not]
          rintro (⟨_, hnt, _⟩ | ⟨hat, _, hpar, hlab⟩)
          · exact absurd hnt (by simp [createSection])
          · simp only [createSection] at hpar hlab
            apply hnd
            have := h3 a ha hat
            rw [hpar, hlab] at this
            simpa using this
        · intro m hm ht
          rcases List.mem_append.mp hm with hmo | hmn
          · exact h2 m hmo ht
          · rw [List.mem_singleton.mp hmn] at ht
            exact absurd ht (by simp [createSection])
        · intro m hm ht
          rcases List.mem_append.mp hm with hmo | hmn
          · exact List.mem_cons_of_mem _ (h3 m hmo ht)
          · rw [List.mem_singleton.mp hmn]
            simp [createSection]
      · exact ⟨h1, h2, h3⟩
      · refine ⟨?_, ?_, ?_⟩
        · refine pairwiseAll_append.mpr ⟨h1, fun a ha => ?_⟩
          simp only [Bool.not_eq_true', dupKeyClash, decide_eq_false_iff_not]
          rintro (⟨_, hnt, _⟩ | ⟨_, hnt, _, _⟩) <;> exact absurd hnt (by simp)
        · intro m hm ht
          rcases List.mem_append.mp hm with hmo | hmn
          · exact h2 m hmo ht
          · rw [List.mem_singleton.mp hmn] at ht
            exact absurd ht (by simp)
        · intro m hm ht
          rcases List.mem_append.mp hm with hmo | hmn
          · exact h3 m hmo ht
          · rw [List.mem_singleton.mp hmn] at ht
            exact absurd ht (by simp))
    lines st i (fun _ _ => trivial) ⟨h1, h2, h3⟩
  exact hj.1

/-- Under a filtering mode, every emitted `Section` node's label
satisfies the classifier, because a section node is pushed only right
after the classifier accepted its heading. -/
theorem runLines_sections_matched (o : ParseOptions)
    (hf : o.filter ≠ SpecSectionFilter.all) (lines : List (List Char))
    (st : ParserState) (i : Nat)
    (h : ∀ m ∈ st.out, m.type = SectionType.sec →
      isSectionMatch m.label (o.sectionKeywords.getD []) = true) :
    ∀ m ∈ (runLines o st i lines).out, m.type = SectionType.sec →
      isSectionMatch m.label (o.sectionKeywords.getD []) = true := by
  obtain ⟨j, hj⟩ := runLines_inv o
    (fun st _ => ∀ m ∈ st.out, m.type = SectionType.sec →
      isSectionMatch m.label (o.sectionKeywords.getD []) = true)
    (fun _ => True)
    (by
      intro st i line _ hInv
      rcases processLine_cases o st i line with h | ⟨name, _, hkw, _, h⟩ | ⟨name, _, _, _, h⟩ |
        h | ⟨cur, sub, _, _, _, _, _, h⟩ | ⟨cur, sub, _, _, _, _, _, h⟩ |
        ⟨cur, sub, lbl, stt, _, _, _, _, _, _, _, h⟩ <;> rw [h]
      · exact hInv
      · intro m hm ht
        rcases List.mem_append.mp hm with hmo | hmn
        · exact hInv m hmo ht
        · rw [List.mem_singleton.mp hmn]
          simpa [createSection] using hkw hf
      · exact hInv
      · exact hInv
      · intro m hm ht
        rcases List.mem_append.mp hm with hmo | hmn
        · exact hInv m hmo ht
        · rw [List.mem_singleton.mp hmn] at ht
          exact absurd ht (by simp [createSection])
      · exact hInv
      · intro m hm ht
        rcases List.mem_append.mp hm with hmo | hmn
        · exact hInv m hmo ht
        · rw [List.mem_singleton.mp hmn] at ht
          exact absurd ht (by simp))
    lines st i (fun _ _ => trivial) h
  exact hj

/-- Subsection containment is unconditional: a subsection node is only
pushed while the current section's node is already in the output. -/
theorem runLines_subContainment (o : ParseOptions) (lines : List (List Char))
    (st : ParserState) (i : Nat)
    (h1 : containedFrom subNodeContained [] st.out = true)
    (h2 : ∀ lbl ∈ st.sectionSet, ∃ m ∈ st.out, m.type = SectionType.sec ∧ m.label = lbl)
    (h3 : ∀ s, st.currentSection = some s → s ∈ st.sectionSet) :
    containedFrom subNodeContained [] (runLines o st i lines).out = true := by
  obtain ⟨j, hj⟩ := runLines_inv o
    (fun st _ =>
      containedFrom subNodeContained [] st.out = true ∧
      (∀ lbl ∈ st.sectionSet, ∃ m ∈ st.out, m.type = SectionType.sec ∧ m.label = lbl) ∧
      (∀ s, st.currentSection = some s → s ∈ st.sectionSet))
    (fun _ => True)
    (by
      intro st i line _ hInv
      obtain ⟨h1, h2, h3⟩ := hInv
      rcases processLine_cases o st i line with h | ⟨name, _, _, _, h⟩ | ⟨name, _, _, hmem, h⟩ |
        h | ⟨cur, sub, hcs, _, _, _, _, h⟩ | ⟨cur, sub, hcs, _, _, _, _, h⟩ |
        ⟨cur, sub, lbl, stt, hcs, hcsub, _, _, _, _, _, h⟩ <;> rw [h]
      · exact ⟨h1, h2, h3⟩
      · refine ⟨containedFrom_append.mpr ⟨h1, by simp [subNodeContained, createSection]⟩,
          ?_, ?_⟩
        · intro lbl hl
          rcases List.mem_cons.mp hl with hl1 | hl1
          · exact ⟨createSection name i SectionType.sec none, by simp,
              by simp [createSection, hl1]⟩
          · obtain ⟨m, hm, hrest⟩ := h2 lbl hl1
            exact ⟨m, List.mem_append_left _ hm, hrest⟩
        · intro s hs
          injection hs with hs
          rw [← hs]
          exact List.mem_cons_self _ _
      · refine ⟨h1, h2, ?_⟩
        intro s hs
        injection hs with hs
        rw [← hs]
        exact hmem
      · exact ⟨h1, h2, fun s hs => by cases hs⟩
      · refine ⟨?_, ?_, ?_⟩
        · refine containedFrom_append.mpr ⟨h1, ?_⟩
          obtain ⟨m, hm, hsec, hlab⟩ := h2 cur (h3 cur hcs)
          simp only [subNodeContained, createSection]
          exact List.any_eq_true.mpr ⟨m, hm, decide_eq_true ⟨hsec, by rw [hlab]⟩⟩
        · intro lbl hl
          obtain ⟨m, hm, hrest⟩ := h2 lbl hl
          exact ⟨m, List.mem_append_left _ hm, hrest⟩
        · intro s hs
          injection hs with hs
          rw [← hs]
          exact h3 cur hcs
      · refine ⟨h1, h2, ?_⟩
        intro s hs
        injection hs with hs
        rw [← hs]
        exact h3 cur hcs
      · refine ⟨containedFrom_append.mpr ⟨h1, by simp [subNodeContained]⟩, ?_, ?_⟩
        · intro lbl hl
          obtain ⟨m, hm, hrest⟩ := h2 lbl hl
          exact ⟨m, List.mem_append_left _ hm, hrest⟩
        · intro s hs
          injection hs with hs
          rw [← hs]
          exact h3 cur hcs)
    lines st i (fun _ _ => trivial) ⟨h1, h2, h3⟩
  exact hj.1

/-- Full containment (items included) holds whenever no line contains a
colon, so that the `::`-joined subsection keys decompose uniquely. -/
theorem runLines_containment (o : ParseOptions) (lines : List (List Char))
    (st : ParserState) (i : Nat)
    (hP : ∀ l ∈ lines, ':' ∉ l)
    (h1 : containedFrom nodeContained [] st.out = true)
    (h2 : ∀ lbl ∈ st.sectionSet, ∃ m ∈ st.out, m.type = SectionType.sec ∧ m.label = lbl)
    (h3 : ∀ s, st.currentSection = some s → s ∈ st.sectionSet ∧ ':' ∉ s)
    (h4 : ∀ k ∈ st.subsectionSet, ∃ m ∈ st.out, m.type = SectionType.subsec ∧
      ∃ p, m.parent = some p ∧ ':' ∉ p ∧ ':' ∉ m.label ∧ p ++ keySep ++ m.label = k)
    (h5 : ∀ s b, st.currentSection = some s → st.currentSubsection = some b →
      (s ++ keySep ++ b) ∈ st.subsectionSet ∧ ':' ∉ b) :
    containedFrom nodeContained [] (runLines o st i lines).out = true := by
  obtain ⟨j, hj⟩ := runLines_inv o
    (fun st _ =>
      containedFrom nodeContained [] st.out = true ∧
      (∀ lbl ∈ st.sectionSet, ∃ m ∈ st.out, m.type = SectionType.sec ∧ m.label = lbl) ∧
      (∀ s, st.currentSection = some s → s ∈ st.sectionSet ∧ ':' ∉ s) ∧
      (∀ k ∈ st.subsectionSet, ∃ m ∈ st.out, m.type = SectionType.subsec ∧
        ∃ p, m.parent = some p ∧ ':' ∉ p ∧ ':' ∉ m.label ∧ p ++ keySep ++ m.label = k) ∧
      (∀ s b, st.currentSection = some s → st.currentSubsection = some b →
        (s ++ keySep ++ b) ∈ st.subsectionSet ∧ ':' ∉ b))
    (fun line => ':' ∉ line)
    (by
      intro st i line hline hInv
      obtain ⟨h1, h2, h3, h4, h5⟩ := hInv
      rcases processLine_cases o st i line with h | ⟨name, hss, _, _, h⟩ |
        ⟨name, hss, _, hmem, h⟩ | h | ⟨cur, sub, hcs, _, _, hss, _, h⟩ |
        ⟨cur, sub, hcs, _, _, hss, hmem, h⟩ |
        ⟨cur, sub, lbl, stt, hcs, hcsub, _, _, _, _, _, h⟩ <;> rw [h]
      · exact ⟨h1, h2, h3, h4, h5⟩
      · refine ⟨containedFrom_append.mpr ⟨h1, by simp [nodeContained, createSection]⟩,
          ?_, ?_, ?_, ?_⟩
        · intro lbl hl
          rcases List.mem_cons.mp hl with hl1 | hl1
          · exact ⟨createSection name i SectionType.sec none, by simp,
              by simp [createSection, hl1]⟩
          · obtain ⟨m, hm, hrest⟩ := h2 lbl hl1
            exact ⟨m, List.mem_append_left _ hm, hrest⟩
        · intro s hs
          injection hs with hs
          rw [← hs]
          exact ⟨List.mem_cons_self _ _, fun hc => hline (hss ':' hc)⟩
        · intro k hk
          obtain ⟨m, hm, hrest⟩ := h4 k hk
          exact ⟨m, List.mem_append_left _ hm, hrest⟩
        · intro s b _ hb
          cases hb
      · refine ⟨h1, h2, ?_, h4, ?_⟩
        · intro s hs
          injection hs with hs
          rw [← hs]
          exact ⟨hmem, fun hc => hline (hss ':' hc)⟩
        · intro s b _ hb
          cases hb
      · refine ⟨h1, h2, ?_, h4, ?_⟩
        · intro s hs
          cases hs
        · intro s b hs _
          cases hs
      · refine ⟨?_, ?_, ?_, ?_, ?_⟩
        · refine containedFrom_append.mpr ⟨h1, ?_⟩
          obtain ⟨m, hm, hsec, hlab⟩ := h2 cur (h3 cur hcs).1
          simp only [nodeContained, createSection]
          exact List.any_eq_true.mpr ⟨m, hm, decide_eq_true ⟨hsec, by rw [hlab]⟩⟩
        · intro lbl hl
          obtain ⟨m, hm, hrest⟩ := h2 lbl hl
          exact ⟨m, List.mem_append_left _ hm, hrest⟩
        · intro s hs
          injection hs with hs
          rw [← hs]
          exact h3 cur hcs
        · intro k hk
          rcases List.mem_cons.mp hk with hk1 | hk1
          · refine ⟨createSection sub i SectionType.subsec (some cur), by simp, ?_⟩
            refine ⟨by simp [createSection], cur, by simp [createSection],
              (h3 cur hcs).2, fun hc => hline (hss ':' hc), ?_⟩
            simp [createSection, hk1]
          · obtain ⟨m, hm, hrest⟩ := h4 k hk1
            exact ⟨m, List.mem_append_left _ hm, hrest⟩
        · intro s b hs hb
          injection hs with hs
          injection hb with hb
          rw [← hs, ← hb]
          exact ⟨List.mem_cons_self _ _, fun hc => hline (hss ':' hc)⟩
      · refine ⟨h1, h2, ?_, h4, ?_⟩
        · intro s hs
          injection hs with hs
          rw [← hs]
          exact h3 cur hcs
        · intro s b hs hb
          injection hs with hs
          injection hb with hb
          rw [← hs, ← hb]
          exact ⟨hmem, fun hc => hline (hss ':' hc)⟩
      · refine ⟨?_, ?_, ?_, ?_, ?_⟩
        · refine containedFrom_append.mpr ⟨h1, ?_⟩
          obtain ⟨hkmem, hsubc⟩ := h5 cur sub hcs hcsub
          obtain ⟨m, hm, hsubsec, p, hp, hpc, hlc, hkey⟩ := h4 _ hkmem
          obtain ⟨hpeq, hleq⟩ := keySep_append_inj hpc (h3 cur hcs).2 hkey
          simp only [nodeContained]
          exact List.any_eq_true.mpr ⟨m, hm, decide_eq_true ⟨hsubsec, by rw [hleq]⟩⟩
        · intro lbl hl
          obtain ⟨m, hm, hrest⟩ := h2 lbl hl
          exact ⟨m, List.mem_append_left _ hm, hrest⟩
        · intro s hs
          injection hs with hs
          rw [← hs]
          exact h3 cur hcs
        · intro k hk
          obtain ⟨m, hm, hrest⟩ := h4 k hk
          exact ⟨m, List.mem_append_left _ hm, hrest⟩
        · intro s b hs hb
          injection hs with hs
          injection hb with hb
          rw [← hs, ← hb]
          exact h5 cur sub hcs hcsub)
    lines st i hP ⟨h1, h2, h3, h4, h5⟩
  exact hj.1

/-! Claim theorems. -/

/-- The input of the spec's Scenario A. -/
def scenarioAInput : List Char := str "## Requirements\n- [ ] task one\n"

/-- C1 (counterexample): parsing `"## Requirements\n- [ ] task one\n"`
in implementations mode yields the empty result — in particular it does
not contain exactly one `Section` node labelled `Requirements` — because
the heading `Requirements` contains none of the implementations
keywords. -/
theorem claim1_counterexample :
    parseImplementations (fun _ => true) (str "spec.md") (some scenarioAInput) = [] ∧
    (parseImplementations (fun _ => true) (str "spec.md") (some scenarioAInput)).countP
        (fun n => decide (n.type = SectionType.sec ∧ n.label = str "Requirements")) ≠ 1 := by
  constructor
  · decide
  · decide

/-- C1 (amended): in implementations mode the Scenario A input produces
no nodes at all (the heading fails the implementations keyword filter);
the stated outcome — exactly one `Section` node `Requirements` and zero
`Item` nodes, the pre-subsection item being dropped — is what
requirements mode produces on the same input. -/
theorem claim1_amended :
    parseImplementations (fun _ => true) (str "spec.md") (some scenarioAInput) = [] ∧
    parseRequirements (fun _ => true) (str "spec.md") (some scenarioAInput) =
      [{ label := str "Requirements", line := 0, type := SectionType.sec,
         parent := none, status := none, contextValue := SectionType.sec }] := by
  constructor
  · decide
  · decide

/-- C2 (counterexample): the `SpecParser` status extractor does not
recognize `[~]`: on the raw item text `[~] task` it records no status
and leaves the token in the label, and a full implementations-mode parse
of a `- [~] thing` line emits the item with label `[~] thing` and no
status (never `InProgress`). -/
theorem claim2_counterexample :
    extractStatus true (str "[~] task") = (none, str "[~] task") ∧
    (parseImplementations (fun _ => true) (str "spec.md")
        (some (str "## Task List\n### Sub\n- [~] thing\n"))).countP
      (fun n => decide (n.status = some ImplementationStatus.inProgress)) = 0 ∧
    (parseImplementations (fun _ => true) (str "spec.md")
        (some (str "## Task List\n### Sub\n- [~] thing\n"))).countP
      (fun n => decide (n.label = str "[~] thing" ∧ n.status = none)) = 1 := by
  refine ⟨by decide, by decide, by decide⟩

/-- C2 (amended): the `[~]` token is recognized only by the checklist
flows of `parseSpecSection` (the Review/Execution three-way-status
views), whose matcher `/^- \[([ x~])\] (.+)$/` requires the literal
prefix `- [` (no extra leading white space) and one space after the
token: there a `[~]` line yields `In Progress` with the marker
stripped, by exactly the same match that maps `[x]` to `Completed` and
`[ ]` to `Pending`. -/
theorem claim2_amended (rest : List Char) (h1 : rest ≠ [])
    (h2 : rest.all (fun ch => !isTerm ch) = true) :
    (todoLineMatch ('-' :: ' ' :: '[' :: '~' :: ']' :: ' ' :: rest) = some ('~', rest) ∧
      todoStatusOf '~' = TodoStatus.inProgress) ∧
    (todoLineMatch ('-' :: ' ' :: '[' :: 'x' :: ']' :: ' ' :: rest) = some ('x', rest) ∧
      todoStatusOf 'x' = TodoStatus.completed) ∧
    (todoLineMatch ('-' :: ' ' :: '[' :: ' ' :: ']' :: ' ' :: rest) = some (' ', rest) ∧
      todoStatusOf ' ' = TodoStatus.pending) := by
  refine ⟨⟨?_, by decide⟩, ⟨?_, by decide⟩, ⟨?_, by decide⟩⟩ <;>
    simp only [todoLineMatch] <;>
    rw [if_pos (by simp [h1, h2])]

/-- Witness for C2 (amended) at `rest = "task"`. -/
theorem claim2_amended_witness :
    (todoLineMatch ('-' :: ' ' :: '[' :: '~' :: ']' :: ' ' :: str "task") =
        some ('~', str "task") ∧
      todoStatusOf '~' = TodoStatus.inProgress) ∧
    (todoLineMatch ('-' :: ' ' :: '[' :: 'x' :: ']' :: ' ' :: str "task") =
        some ('x', str "task") ∧
      todoStatusOf 'x' = TodoStatus.completed) ∧
    (todoLineMatch ('-' :: ' ' :: '[' :: ' ' :: ']' :: ' ' :: str "task") =
        some (' ', str "task") ∧
      todoStatusOf ' ' = TodoStatus.pending) :=
  claim2_amended (str "task") (by decide) (by decide)

/-- C4 (counterexample): the raw item text `[x]` begins with the
checkbox token but the extractor records no status (the capture `(.+)`
needs a nonempty remainder) and the cleanup strip then empties the
label, so neither `status = Completed` nor "label unchanged" holds. -/
theorem claim4_counterexample :
    extractStatus true (str "[x]") = (none, ([] : List Char)) ∧
    (extractStatus true (str "[x]")).1 ≠ some ImplementationStatus.completed := by
  refine ⟨by decide, by decide⟩

/-- C4 (amended): on terminator-free raw item text, `[x]` followed by a
non-blank remainder yields `Completed` and `[ ]` yields `Pending`, with
the token and the following white space stripped and — in addition to
what the claim stated — one further leading checkbox token removed by
the cleanup strip; the bare tokens `[x]`/`[ ]` with nothing after them
get no status and an emptied label; without a recognized token at the
very front the text is returned unchanged with no status (so mid-line
tokens stay in the label). -/
theorem claim4_amended :
    (∀ t : List Char, (∀ c ∈ t, isTerm c = false) → t.dropWhile isWs ≠ [] →
        extractStatus true ('[' :: 'x' :: ']' :: t) =
          (some ImplementationStatus.completed, stripCheckbox (t.dropWhile isWs))) ∧
    (∀ t : List Char, (∀ c ∈ t, isTerm c = false) → t.dropWhile isWs ≠ [] →
        extractStatus true ('[' :: ' ' :: ']' :: t) =
          (some ImplementationStatus.pending, stripCheckbox (t.dropWhile isWs))) ∧
    extractStatus true (str "[x]") = (none, ([] : List Char)) ∧
    extractStatus true (str "[ ]") = (none, ([] : List Char)) ∧
    (∀ s : List Char, checkboxAtStart s = false → extractStatus true s = (none, s)) := by
  refine ⟨?_, ?_, by decide, by decide, ?_⟩
  · intro t hnt hne
    simp only [extractStatus, checkboxMatch, if_pos (by decide : ('x' = 'x' || 'x' = ' ') = true),
      wsStarDotPlus_of_noTerm hnt hne]
    simp
  · intro t hnt hne
    simp only [extractStatus, checkboxMatch, if_pos (by decide : (' ' = 'x' || ' ' = ' ') = true),
      wsStarDotPlus_of_noTerm hnt hne]
    simp
  · intro s h
    simp only [extractStatus, checkboxMatch_of_no_token h]
    simp [stripCheckbox_of_no_token h]

/-- Witness for C4 (amended) at concrete inputs. -/
theorem claim4_amended_witness :
    extractStatus true ('[' :: 'x' :: ']' :: str " done") =
      (some ImplementationStatus.completed, stripCheckbox ((str " done").dropWhile isWs)) ∧
    extractStatus true ('[' :: ' ' :: ']' :: str " todo") =
      (some ImplementationStatus.pending, stripCheckbox ((str " todo").dropWhile isWs)) ∧
    extractStatus true (str "do [x] later") = (none, str "do [x] later") :=
  ⟨claim4_amended.1 (str " done") (by decide) (by decide),
   claim4_amended.2.1 (str " todo") (by decide) (by decide),
   claim4_amended.2.2.2.2 (str "do [x] later") (by decide)⟩

/-- C8: the parser wrapper is a total function (no exception can be
modelled: every branch returns a list); a file that fails the existence
check, or an absent document content, yields the empty node sequence. -/
theorem claim8 (fsExists : List Char → Bool) (filePath : List Char)
    (content : Option (List Char)) (options : ParseOptions) :
    (fsExists filePath = false → parseFile fsExists filePath content options = []) ∧
    parseFile fsExists filePath none options = [] := by
  constructor
  · intro h
    simp [parseFile, h]
  · by_cases h : fsExists filePath = false <;> simp [parseFile, h]

/-- Witness for C8 at a concrete missing file and a concrete absent
content. -/
theorem claim8_witness :
    parseFile (fun _ => false) (str "spec.md") (some (str "## A\n")) allOptions = [] ∧
    parseFile (fun _ => true) (str "spec.md") none allOptions = [] :=
  ⟨(claim8 (fun _ => false) (str "spec.md") (some (str "## A\n")) allOptions).1 rfl,
   (claim8 (fun _ => true) (str "spec.md") none allOptions).2⟩

/-- C9: parsing is deterministic — two invocations of the parser on the
identical document and options denote the identical node sequence.  In
this embedding the parser is a pure function of its inputs (it holds no
state besides the per-call loop variables), so the two calls are one
and the same value. -/
theorem claim9 (fsExists : List Char → Bool) (filePath : List Char)
    (content : Option (List Char)) (options : ParseOptions) :
    parseFile fsExists filePath content options =
      parseFile fsExists filePath content options ∧
    ∀ lines : List (List Char), parseLines lines options = parseLines lines options :=
  ⟨rfl, fun _ => rfl⟩

/-- C10: for any two file paths that both pass the existence check, the
parse result is the same — the path feeds only the existence check,
never the parsing of the manager-supplied content. -/
theorem claim10 (fsExists : List Char → Bool) (p1 p2 : List Char)
    (content : Option (List Char)) (options : ParseOptions)
    (h1 : fsExists p1 = true) (h2 : fsExists p2 = true) :
    parseFile fsExists p1 content options = parseFile fsExists p2 content options := by
  simp [parseFile, h1, h2]

/-- C3 (counterexample): items are deduplicated by the
`(section, subsection, label)` triple, not by `(parentLabel, label)`:
the same item under equally named subsections of two different sections
survives twice, so two `Item` nodes of the same kind share the
`(parentLabel, label)` pair `("Sub", "item")`. -/
theorem claim3_counterexample :
    (parseAllSections (fun _ => true) (str "spec.md")
        (some (str "## A\n### Sub\n- item\n## B\n### Sub\n- item\n"))).countP
      (fun n => decide (n.type = SectionType.subitem ∧ n.parent = some (str "Sub") ∧
        n.label = str "item")) = 2 := by
  decide

/-- C3 (amended): in every parse result no two `Section` nodes share a
label and no two `Subsection` nodes share a `(parentLabel, label)`
pair; `Item` nodes are deduplicated by the `::`-joined
`(section, subsection, label)` triple, so within one section and
subsection a repeated cleaned label survives only once, at its first
(lowest) line; keys are computed after label cleaning, by exact
case-sensitive string equality. -/
theorem claim3_amended :
    (∀ (fsExists : List Char → Bool) (filePath : List Char)
        (content : Option (List Char)) (options : ParseOptions),
        pairwiseAll (fun a b => !(dupKeyClash a b))
          (parseFile fsExists filePath content options) = true) ∧
    (parseAllSections (fun _ => true) (str "spec.md")
        (some (str "## A\n### Sub\n- item\n- item\n"))).countP
      (fun n => decide (n.type = SectionType.subitem)) = 1 ∧
    (parseAllSections (fun _ => true) (str "spec.md")
        (some (str "## A\n### Sub\n- item\n- item\n"))).countP
      (fun n => decide (n.type = SectionType.subitem ∧ n.line = 2)) = 1 ∧
    (parseAllSections (fun _ => true) (str "spec.md")
        (some (str "## A\n### Sub\n- Item\n- item\n"))).countP
      (fun n => decide (n.type = SectionType.subitem)) = 2 := by
  refine ⟨?_, by decide, by decide, by decide⟩
  intro fsExists filePath content options
  unfold parseFile parseLines
  split
  · rfl
  · split
    · rfl
    · split
      · rfl
      · exact runLines_dedup options _ (initState options) 0 rfl
          (fun m hm => absurd hm (List.not_mem_nil m))
          (fun m hm => absurd hm (List.not_mem_nil m))

/-- C5: the classifier of requirements mode returns true iff the
lowercased heading contains at least one of the substrings
`user`, `scenario`, `requirement`, `test`, `functional`; consequently,
every `Section` node of a requirements-mode parse has a label whose
lowercased text contains one of these keywords. -/
theorem claim5 :
    (∀ name : List Char,
        isSectionMatch name requirementKeywords =
          (containsSub (str "user") (lowerStr name) ||
           containsSub (str "scenario") (lowerStr name) ||
           containsSub (str "requirement") (lowerStr name) ||
           containsSub (str "test") (lowerStr name) ||
           containsSub (str "functional") (lowerStr name))) ∧
    (∀ (fsExists : List Char → Bool) (filePath : List Char) (content : Option (List Char)),
        (parseRequirements fsExists filePath content).all
          (fun n => decide (n.type = SectionType.sec →
            isSectionMatch n.label requirementKeywords = true)) = true) := by
  constructor
  · intro name
    have hu : lowerStr (str "user") = str "user" := by decide
    have hs : lowerStr (str "scenario") = str "scenario" := by decide
    have hr : lowerStr (str "requirement") = str "requirement" := by decide
    have ht : lowerStr (str "test") = str "test" := by decide
    have hf : lowerStr (str "functional") = str "functional" := by decide
    simp only [isSectionMatch, requirementKeywords, List.any_cons, List.any_nil,
      hu, hs, hr, ht, hf, Bool.or_false, Bool.or_assoc]
  · intro fsExists filePath content
    rw [List.all_eq_true]
    intro n hn
    rw [decide_eq_true_eq]
    intro htype
    unfold parseRequirements parseFile parseLines at hn
    split at hn
    · exact absurd hn (List.not_mem_nil n)
    · split at hn
      · exact absurd hn (List.not_mem_nil n)
      · split at hn
        · exact absurd hn (List.not_mem_nil n)
        · exact runLines_sections_matched requirementsOptions (by simp [requirementsOptions])
            _ (initState requirementsOptions) 0
            (fun m hm => absurd hm (List.not_mem_nil m)) n hn htype

/-- C6 (counterexample): the dedup keys join labels with `::`, so the
key of subsection `C` under section `A::B` collides with the key of
subsection `B::C` under section `A`; the second subsection node is
dropped while the current-subsection variable is still updated, and the
following item is emitted with `parentLabel = "B::C"` although no
`Subsection` node with that label exists anywhere in the result —
containment fails. -/
theorem claim6_counterexample :
    containmentOK (parseAllSections (fun _ => true) (str "spec.md")
      (some (str "## A::B\n### C\n## A\n### B::C\n- item\n"))) = false ∧
    (parseAllSections (fun _ => true) (str "spec.md")
        (some (str "## A::B\n### C\n## A\n### B::C\n- item\n"))).countP
      (fun n => decide (n.type = SectionType.subitem ∧ n.parent = some (str "B::C"))) = 1 ∧
    (parseAllSections (fun _ => true) (str "spec.md")
        (some (str "## A::B\n### C\n## A\n### B::C\n- item\n"))).countP
      (fun n => decide (n.type = SectionType.subsec ∧ n.label = str "B::C")) = 0 := by
  refine ⟨by decide, by decide, by decide⟩

/-- C6 (amended): every `Subsection` node's parentLabel equals the
label of an earlier `Section` node, in every mode, unconditionally;
every `Item` node's parentLabel equals the label of an earlier
`Subsection` node provided the `::`-joined dedup keys cannot collide
(e.g. whenever no line contains a colon); items encountered before any
subsection in an active section are dropped, as the concrete run
shows (only the item after the subsection survives). -/
theorem claim6_amended :
    (∀ (fsExists : List Char → Bool) (filePath : List Char)
        (content : Option (List Char)) (options : ParseOptions),
        subContainmentOK (parseFile fsExists filePath content options) = true) ∧
    (∀ (lines : List (List Char)) (options : ParseOptions),
        (∀ l ∈ lines, ':' ∉ l) → containmentOK (parseLines lines options) = true) ∧
    (parseAllSections (fun _ => true) (str "spec.md")
        (some (str "## A\n- early\n### Sub\n- late\n"))).countP
      (fun n => decide (n.type = SectionType.subitem)) = 1 ∧
    (parseAllSections (fun _ => true) (str "spec.md")
        (some (str "## A\n- early\n### Sub\n- late\n"))).countP
      (fun n => decide (n.type = SectionType.subitem ∧ n.label = str "late")) = 1 := by
  refine ⟨?_, ?_, by decide, by decide⟩
  · intro fsExists filePath content options
    unfold parseFile parseLines subContainmentOK
    split
    · rfl
    · split
      · rfl
      · split
        · rfl
        · exact runLines_subContainment options _ (initState options) 0 rfl
            (fun lbl hl => absurd hl (List.not_mem_nil lbl))
            (fun s hs => by simp [initState] at hs)
  · intro lines options hP
    unfold parseLines containmentOK
    exact runLines_containment options lines (initState options) 0 hP rfl
      (fun lbl hl => absurd hl (List.not_mem_nil lbl))
      (fun s hs => by simp [initState] at hs)
      (fun k hk => absurd hk (List.not_mem_nil k))
      (fun s b hs _ => by simp [initState] at hs)

/-- Witness for C6 (amended): the colon-free hypothesis discharged on a
concrete document, and the unconditional subsection containment
evaluated on the colliding counterexample document. -/
theorem claim6_amended_witness :
    containmentOK (parseLines [str "## A", str "### B", str "- c"] allOptions) = true ∧
    subContainmentOK (parseAllSections (fun _ => true) (str "spec.md")
      (some (str "## A::B\n### C\n## A\n### B::C\n- item\n"))) = true :=
  ⟨claim6_amended.2.1 [str "## A", str "### B", str "- c"] allOptions (by decide),
   claim6_amended.1 (fun _ => true) (str "spec.md")
     (some (str "## A::B\n### C\n## A\n### B::C\n- item\n")) allOptions⟩

/-- C7: in every parse result, in any mode, nodes appear in strictly
ascending source line order: any node emitted before another has a
strictly smaller `line` field. -/
theorem claim7 (fsExists : List Char → Bool) (filePath : List Char)
    (content : Option (List Char)) (options : ParseOptions) :
    ascendingLines (parseFile fsExists filePath content options) = true := by
  unfold parseFile parseLines
  split
  · rfl
  · split
    · rfl
    · split
      · rfl
      · exact runLines_ascending options _ (initState options) 0 rfl
          (fun m hm => absurd hm (List.not_mem_nil m))

/-- Witness for C10 at concrete distinct paths. -/
theorem claim10_witness :
    parseFile (fun _ => true) (str "a.md") (some scenarioAInput) requirementsOptions =
      parseFile (fun _ => true) (str "b.md") (some scenarioAInput) requirementsOptions :=
  claim10 (fun _ => true) (str "a.md") (str "b.md") (some scenarioAInput)
    requirementsOptions rfl rfl

end SddExt
